import Mathlib

/-!
# Verification of the `bytes` conversion library

The repository exposes two pure functions, `parse` (human-readable byte-size
string to integer byte count) and `format` (byte count to human-readable
string), over a table of six units `b, kb, mb, gb, tb, pb` with scales
`1024 ^ k`.  The shipped source is a declaration-only interface
(`src/index.d.ts`), so the executable behaviour below is modelled from the
specification's algorithm descriptions (§4.1–§4.3 of the design document)
and checked against the claims.

Numbers are modelled exactly: finite JavaScript numbers become rationals,
and the non-finite values are separate constructors of `JSNum`.  Rounding
is round-half-up (`round` from Mathlib, `⌊x + 1/2⌋`), the deterministic
choice the spec asks to be documented.
-/

namespace Bytes

/-- The six byte units, in ascending order of scale.
Modelled from the spec: the runtime `UnitTable` is absent from the
repository (only the `BytesUnit` type alias is declared), so the unit
enumeration follows §3 of the spec. -/
inductive ByteUnit where
  | b
  | kb
  | mb
  | gb
  | tb
  | pb
deriving DecidableEq, Repr

/-- Index of a unit in ascending order; `b` is `0`. -/
def ByteUnit.index : ByteUnit → ℕ
  | .b => 0
  | .kb => 1
  | .mb => 2
  | .gb => 3
  | .tb => 4
  | .pb => 5

/-- Exact integer scale of a unit: `1024 ^ index`. -/
def scaleOf (u : ByteUnit) : ℕ := 1024 ^ u.index

/-- Canonical uppercase label of a unit, used by the formatter. -/
def ByteUnit.label : ByteUnit → String
  | .b => "B"
  | .kb => "KB"
  | .mb => "MB"
  | .gb => "GB"
  | .tb => "TB"
  | .pb => "PB"

/-- Lowercase a unit letter (only the six letters that can occur in a unit
token are affected; all other characters are returned unchanged). -/
def lowerAscii (c : Char) : Char :=
  if c = 'B' then 'b'
  else if c = 'K' then 'k'
  else if c = 'M' then 'm'
  else if c = 'G' then 'g'
  else if c = 'T' then 't'
  else if c = 'P' then 'p'
  else c

/-- Case-insensitive unit lookup on a token given as a character list.
Modelled from the spec: the runtime `scaleOf(unit)` lookup of §4.1 is
absent from the repository; lookup is case-insensitive over the whole
token and unknown tokens signal failure. -/
def unitOfChars (cs : List Char) : Option ByteUnit :=
  let t := cs.map lowerAscii
  if t = ['b'] then some .b
  else if t = ['k', 'b'] then some .kb
  else if t = ['m', 'b'] then some .mb
  else if t = ['g', 'b'] then some .gb
  else if t = ['t', 'b'] then some .tb
  else if t = ['p', 'b'] then some .pb
  else none

/-- Formatting options with their spec defaults (§3). -/
structure BytesOptions where
  decimalPlaces : ℕ := 2
  fixedDecimals : Bool := false
  thousandsSeparator : String := ""
  unit : Option ByteUnit := none
  unitSeparator : String := ""

/-- A JavaScript number as seen by `format`: either a finite value
(modelled exactly as a rational) or one of the non-finite values. -/
inductive JSNum where
  | finite (q : ℚ)
  | nan
  | posInf
  | negInf
deriving DecidableEq

/-! ## Parser -/

/-- Consume an optional leading sign, returning the sign value and the
remaining characters. -/
def readSign (cs : List Char) : ℚ × List Char :=
  match cs with
  | [] => (1, [])
  | c :: rest =>
    if c = '+' then (1, rest)
    else if c = '-' then (-1, rest)
    else (1, c :: rest)

/-- Split a character list into its longest prefix of decimal digits and
the rest. -/
def spanDigits : List Char → List Char × List Char
  | [] => ([], [])
  | c :: cs =>
    if c.isDigit then
      let p := spanDigits cs
      (c :: p.1, p.2)
    else ([], c :: cs)

/-- Numeric value of a list of decimal digit characters (most significant
first). -/
def digitsToNat (ds : List Char) : ℕ :=
  ds.foldl (fun acc c => acc * 10 + (c.toNat - 48)) 0

/-- Exact mantissa value of an integer digit part and a (possibly empty)
fractional digit part. -/
def mantissa (ip fp : List Char) : ℚ :=
  (digitsToNat ip : ℚ) + (digitsToNat fp : ℚ) / 10 ^ fp.length

/-- Consume the optional single internal space before the unit token. -/
def stripOneSpace (cs : List Char) : List Char :=
  match cs with
  | [] => []
  | c :: rest => if c = ' ' then rest else c :: rest

/-- Final step of parsing: strip the optional space, look the unit up and
round the scaled mantissa to the nearest integer (half-up).
Modelled from the spec: §4.2, `bytesValue = round(signedMantissa *
scaleOf(unit))`. -/
def finishParse (sg : ℚ) (ip fp rest : List Char) : Option ℤ :=
  match unitOfChars (stripOneSpace rest) with
  | some u => some (round (sg * mantissa ip fp * (scaleOf u : ℚ)))
  | none => none

/-- After the integer digits: an optional fraction (a dot must be
followed by at least one digit), then the unit suffix. -/
def parseAfterDigits (sg : ℚ) (ip : List Char) : List Char → Option ℤ
  | [] => finishParse sg ip [] []
  | c :: rest =>
    if c = '.' then
      let f := spanDigits rest
      if f.1 = [] then none else finishParse sg ip f.1 f.2
    else finishParse sg ip [] (c :: rest)

/-- Parse the part after the sign: a non-empty run of integer digits,
then `parseAfterDigits`. -/
def parseNum (sg : ℚ) (cs : List Char) : Option ℤ :=
  let d := spanDigits cs
  if d.1 = [] then none else parseAfterDigits sg d.1 d.2

/-- Parse a byte-size string to an integer byte count.
Modelled from the spec: the runtime body of `parse` is absent from the
repository (`src/index.d.ts` declares only its type); the grammar is
`[+-]? DIGITS ("." DIGITS)? (" ")? UNIT` (§4.2/§6) and every violation
yields `none`.  The function is total: it never throws. -/
def parseBytes (s : String) : Option ℤ :=
  parseNum (readSign s.data).1 (readSign s.data).2

/-! ## Formatter -/

/-- Auto unit selection: the largest unit whose scale is at most
`|bytesValue|`, scanning from petabyte down; byte when `|q| < 1024`.
Modelled from the spec: §4.3 unit selection (the runtime body of
`format` is absent from the repository). -/
def autoUnit (q : ℚ) : ByteUnit :=
  if ((scaleOf .pb : ℕ) : ℚ) ≤ |q| then .pb
  else if ((scaleOf .tb : ℕ) : ℚ) ≤ |q| then .tb
  else if ((scaleOf .gb : ℕ) : ℚ) ≤ |q| then .gb
  else if ((scaleOf .mb : ℕ) : ℚ) ≤ |q| then .mb
  else if ((scaleOf .kb : ℕ) : ℚ) ≤ |q| then .kb
  else .b

/-- Round-half-up of the nonnegative ratio `a / b` (with `b > 0`),
computed with natural-number arithmetic: `⌊a / b + 1 / 2⌋ = (2a + b) / 2b`. -/
def natRoundHalfUp (a b : ℕ) : ℕ := (2 * a + b) / (2 * b)

/-- `|scaledValue| * 10 ^ dp`, rounded half-up to an integer, where
`scaledValue = bytesValue / scaleOf u` (§4.3 scaling and rounding),
computed exactly from the rational's numerator and denominator. -/
def scaledRounded (q : ℚ) (u : ByteUnit) (dp : ℕ) : ℕ :=
  natRoundHalfUp (q.num.natAbs * 10 ^ dp) (q.den * scaleOf u)

/-- Character of a decimal digit value. -/
def digitChar (d : ℕ) : Char := Char.ofNat (48 + d)

/-- Fuel-driven rendering of a natural number's decimal digits, most
significant first, prepended to `acc`. -/
def natToCharsAux (fuel n : ℕ) (acc : List Char) : List Char :=
  match fuel with
  | 0 => acc
  | f + 1 =>
    if n = 0 then acc
    else natToCharsAux f (n / 10) (digitChar (n % 10) :: acc)

/-- Decimal digit characters of a natural number (`0` renders as `"0"`). -/
def natToChars (n : ℕ) : List Char :=
  if n = 0 then ['0'] else natToCharsAux (n + 1) n []

/-- Left-pad a digit list with `'0'` up to length `dp`. -/
def padZeros (dp : ℕ) (ds : List Char) : List Char :=
  List.replicate (dp - ds.length) '0' ++ ds

/-- Strip trailing `'0'` characters (used when `fixedDecimals` is false). -/
def stripTrailingZeros (ds : List Char) : List Char :=
  (ds.reverse.dropWhile (fun c => c = '0')).reverse

/-- Insert the (reversed) separator after every three characters of a
reversed digit list. -/
def groupRevAux (sepR : List Char) : List Char → ℕ → List Char
  | [], _ => []
  | c :: cs, 0 => sepR ++ c :: groupRevAux sepR cs 2
  | c :: cs, k + 1 => c :: groupRevAux sepR cs k

/-- Thousands grouping of the integer-part digits: if the separator is
non-empty, insert it between every group of three digits counting from the
right (§4.3 thousands grouping). -/
def groupThousands (sep : String) (ds : List Char) : List Char :=
  if sep.data = [] then ds
  else (groupRevAux sep.data.reverse ds.reverse 3).reverse

/-- Fractional digit characters: exactly `dp` digits of `m` (zero-padded),
or none at all when `dp = 0`. -/
def fracChars (dp m : ℕ) : List Char :=
  if dp = 0 then [] else padZeros dp (natToChars m)

/-- Assemble a byte-size string from its grammar components: sign,
integer digits, fractional digits (empty for none), separator space and
unit token. -/
def assembleInput (sg : String) (ip fp : List Char) (sp us : String) : String :=
  sg ++ String.mk ip ++ (if fp = [] then "" else "." ++ String.mk fp) ++ sp ++ us

/-- Format a finite byte count.
Modelled from the spec: the runtime body of `format` is absent from the
repository; this follows §4.3 — forced or auto-selected unit, scaling by
`scaleOf`, half-up rounding to `decimalPlaces` digits, optional trailing
zero stripping, thousands grouping of the integer part, and assembly
`sign ++ digits ++ unitSeparator ++ unitLabel`. -/
def formatFinite (q : ℚ) (opts : BytesOptions) : String :=
  let u := opts.unit.getD (autoUnit q)
  let dp := opts.decimalPlaces
  let n := scaledRounded q u dp
  let ipDigits := natToChars (n / 10 ^ dp)
  let fpAll := fracChars dp (n % 10 ^ dp)
  let fpDigits := if opts.fixedDecimals then fpAll else stripTrailingZeros fpAll
  assembleInput (if q < 0 then "-" else "") (groupThousands opts.thousandsSeparator ipDigits)
    fpDigits opts.unitSeparator u.label

/-- Format a byte count as a human-readable string; non-finite input
yields `null` immediately (§4.3 precondition check), with no partial
output. -/
def format (x : JSNum) (opts : BytesOptions) : Option String :=
  match x with
  | .finite q => some (formatFinite q opts)
  | _ => none

/-! ## Lemmas: sign and digit scanning -/

/-- Sign value denoted by an optional sign string. -/
def signVal (sg : String) : ℚ := if sg = "-" then -1 else 1

theorem readSign_plus (t : List Char) : readSign ('+' :: t) = (1, t) := by
  simp [readSign]

theorem readSign_minus (t : List Char) : readSign ('-' :: t) = (-1, t) := by
  simp [readSign]

theorem readSign_digit (d : Char) (t : List Char) (hd : d.isDigit = true) :
    readSign (d :: t) = (1, d :: t) := by
  have h1 : d ≠ '+' := by rintro rfl; exact absurd hd (by decide)
  have h2 : d ≠ '-' := by rintro rfl; exact absurd hd (by decide)
  simp [readSign, h1, h2]

theorem spanDigits_append (ds rest : List Char) (h1 : ∀ c ∈ ds, c.isDigit = true)
    (h2 : ∀ c t, rest = c :: t → c.isDigit = false) :
    spanDigits (ds ++ rest) = (ds, rest) := by
  induction ds with
  | nil =>
    cases rest with
    | nil => rfl
    | cons c t => simp [spanDigits, h2 c t rfl]
  | cons d ds ih =>
    have hd := h1 d (List.mem_cons_self d ds)
    have ih' := ih (fun c hc => h1 c (List.mem_cons_of_mem d hc))
    simp only [List.cons_append, spanDigits, hd, if_true, List.append_eq, ih']

theorem spanDigits_decomp (cs : List Char) :
    cs = (spanDigits cs).1 ++ (spanDigits cs).2 := by
  induction cs with
  | nil => rfl
  | cons c cs ih =>
    by_cases hc : c.isDigit
    · simp only [spanDigits, hc, if_true, List.cons_append]
      exact congrArg (c :: ·) ih
    · simp [spanDigits, hc]

theorem spanDigits_digits (cs : List Char) :
    ∀ c ∈ (spanDigits cs).1, c.isDigit = true := by
  induction cs with
  | nil => intro c hc; exact absurd hc (by simp [spanDigits])
  | cons c cs ih =>
    by_cases hc : c.isDigit
    · simp only [spanDigits, hc, if_true]
      intro x hx
      rcases List.mem_cons.mp hx with rfl | hx
      · exact hc
      · exact ih x hx
    · simp [spanDigits, hc]

theorem spanDigits_rest (cs : List Char) :
    ∀ c t, (spanDigits cs).2 = c :: t → c.isDigit = false := by
  induction cs with
  | nil => intro c t h; exact absurd h (by simp [spanDigits])
  | cons c cs ih =>
    intro x t h
    by_cases hc : c.isDigit
    · simp only [spanDigits, hc, if_true] at h
      exact ih x t h
    · simp only [spanDigits, hc, if_false] at h
      simp only [Bool.not_eq_true] at hc
      injection h with h1 h2
      exact h1 ▸ hc

/-! ## Lemmas: unit tokens -/

theorem lowerAscii_cases (c x : Char) (h : lowerAscii c = x) :
    c = x ∨ (x = 'b' ∧ c = 'B') ∨ (x = 'k' ∧ c = 'K') ∨ (x = 'm' ∧ c = 'M') ∨
      (x = 'g' ∧ c = 'G') ∨ (x = 't' ∧ c = 'T') ∨ (x = 'p' ∧ c = 'P') := by
  unfold lowerAscii at h
  split_ifs at h <;> subst h <;> simp_all

theorem unitOfChars_nil : unitOfChars [] = none := by decide

theorem unitOfChars_head (c : Char) (t : List Char) (u : ByteUnit)
    (h : unitOfChars (c :: t) = some u) :
    c.isDigit = false ∧ c ≠ '.' ∧ c ≠ ' ' := by
  have hlow : lowerAscii c = 'b' ∨ lowerAscii c = 'k' ∨ lowerAscii c = 'm' ∨
      lowerAscii c = 'g' ∨ lowerAscii c = 't' ∨ lowerAscii c = 'p' := by
    simp only [unitOfChars, List.map] at h
    split_ifs at h with h1 h2 h3 h4 h5 h6 <;>
      simp_all [List.cons.injEq]
  rcases hlow with h' | h' | h' | h' | h' | h' <;>
    rcases lowerAscii_cases c _ h' with rfl | ⟨_, rfl⟩ | ⟨_, rfl⟩ | ⟨_, rfl⟩ |
      ⟨_, rfl⟩ | ⟨_, rfl⟩ | ⟨_, rfl⟩ <;> simp_all

theorem unitOfChars_ne_nil (us : List Char) (u : ByteUnit)
    (h : unitOfChars us = some u) : ∃ c t, us = c :: t := by
  cases us with
  | nil => rw [unitOfChars_nil] at h; exact Option.noConfusion h
  | cons c t => exact ⟨c, t, rfl⟩

theorem stripOneSpace_space (t : List Char) : stripOneSpace (' ' :: t) = t := by
  simp [stripOneSpace]

theorem stripOneSpace_other (c : Char) (t : List Char) (h : c ≠ ' ') :
    stripOneSpace (c :: t) = c :: t := by
  simp [stripOneSpace, h]

/-! ## Parse soundness on grammar-shaped inputs -/

theorem finishParse_eval (sg : ℚ) (ip fp : List Char) (sp : String)
    (hsp : sp = "" ∨ sp = " ") (us : String) (u : ByteUnit)
    (hu : unitOfChars us.data = some u) :
    finishParse sg ip fp (sp.data ++ us.data)
      = some (round (sg * mantissa ip fp * (scaleOf u : ℚ))) := by
  obtain ⟨c, t, hct⟩ := unitOfChars_ne_nil us.data u hu
  rcases hsp with rfl | rfl
  · have hc := (unitOfChars_head c t u (hct ▸ hu)).2.2
    show finishParse sg ip fp ([] ++ us.data) = _
    rw [List.nil_append, hct]
    simp only [finishParse]
    rw [stripOneSpace_other c t hc, ← hct, hu]
  · show finishParse sg ip fp (' ' :: us.data) = _
    simp only [finishParse]
    rw [stripOneSpace_space, hu]

/-- The fractional component of an input character stream: nothing, or a
dot followed by the fraction digits. -/
def fpPart : List Char → List Char
  | [] => []
  | c :: t => '.' :: c :: t

theorem parseNum_eval (sg : ℚ)
    (ip : List Char) (hip : ip ≠ []) (hipd : ∀ c ∈ ip, c.isDigit = true)
    (fp : List Char) (hfpd : ∀ c ∈ fp, c.isDigit = true)
    (sp : String) (hsp : sp = "" ∨ sp = " ")
    (us : String) (u : ByteUnit) (hu : unitOfChars us.data = some u) :
    parseNum sg (ip ++ (fpPart fp ++ (sp.data ++ us.data)))
      = some (round (sg * mantissa ip fp * (scaleOf u : ℚ))) := by
  obtain ⟨uc, ut, hus⟩ := unitOfChars_ne_nil us.data u hu
  have huc := unitOfChars_head uc ut u (hus ▸ hu)
  have hhead2 : ∀ c t, sp.data ++ us.data = c :: t → c.isDigit = false := by
    intro c t h
    rcases hsp with rfl | rfl
    · rw [show ("" : String).data = [] from rfl, List.nil_append, hus] at h
      injection h with h1 h2
      exact h1 ▸ huc.1
    · rw [show (" " : String).data = [' '] from rfl, List.cons_append] at h
      injection h with h1 h2
      exact h1 ▸ (by decide)
  have hhead : ∀ c t, fpPart fp ++ (sp.data ++ us.data) = c :: t → c.isDigit = false := by
    intro c t h
    cases fp with
    | nil =>
      simp only [fpPart, List.nil_append] at h
      exact hhead2 c t h
    | cons f ft =>
      simp only [fpPart, List.cons_append] at h
      injection h with h1 h2
      exact h1 ▸ (by decide)
  simp only [parseNum, spanDigits_append ip _ hipd hhead]
  rw [if_neg hip]
  cases fp with
  | nil =>
    simp only [fpPart, List.nil_append]
    rcases hsp with rfl | rfl
    · show parseAfterDigits sg ip (("" : String).data ++ us.data) = _
      rw [show ("" : String).data = [] from rfl, List.nil_append, hus]
      simp only [parseAfterDigits]
      rw [if_neg huc.2.1, ← hus]
      exact finishParse_eval sg ip [] "" (Or.inl rfl) us u hu
    · show parseAfterDigits sg ip ((" " : String).data ++ us.data) = _
      rw [show (" " : String).data = [' '] from rfl, List.cons_append]
      simp only [parseAfterDigits]
      rw [if_neg (by decide : ¬(' ' = '.'))]
      exact finishParse_eval sg ip [] " " (Or.inr rfl) us u hu
  | cons f ft =>
    simp only [fpPart, List.cons_append, parseAfterDigits, if_true]
    rw [show f :: (ft ++ (sp.data ++ us.data)) = (f :: ft) ++ (sp.data ++ us.data) from rfl]
    simp only [spanDigits_append (f :: ft) _ hfpd hhead2]
    rw [if_neg (by simp)]
    exact finishParse_eval sg ip (f :: ft) sp hsp us u hu

theorem parseBytes_assembleInput
    (sg : String) (hsg : sg = "" ∨ sg = "+" ∨ sg = "-")
    (ip : List Char) (hip : ip ≠ []) (hipd : ∀ c ∈ ip, c.isDigit = true)
    (fp : List Char) (hfpd : ∀ c ∈ fp, c.isDigit = true)
    (sp : String) (hsp : sp = "" ∨ sp = " ")
    (us : String) (u : ByteUnit) (hu : unitOfChars us.data = some u) :
    parseBytes (assembleInput sg ip fp sp us)
      = some (round (signVal sg * mantissa ip fp * (scaleOf u : ℚ))) := by
  have hdata : (assembleInput sg ip fp sp us).data
      = sg.data ++ (ip ++ (fpPart fp ++ (sp.data ++ us.data))) := by
    simp only [assembleInput, String.data_append]
    cases fp with
    | nil => simp [fpPart]
    | cons f ft =>
      rw [if_neg (by simp)]
      simp [fpPart, String.data_append, List.append_assoc]
  obtain ⟨d, dt, hipc⟩ : ∃ c t, ip = c :: t := by
    cases ip with
    | nil => exact absurd rfl hip
    | cons c t => exact ⟨c, t, rfl⟩
  have hd : d.isDigit = true := hipd d (by rw [hipc]; exact List.mem_cons_self d dt)
  simp only [parseBytes, hdata]
  rcases hsg with rfl | rfl | rfl
  · rw [show ("" : String).data = [] from rfl, List.nil_append, hipc, List.cons_append,
      readSign_digit d _ hd, ← List.cons_append, ← hipc]
    show parseNum 1 (ip ++ (fpPart fp ++ (sp.data ++ us.data))) = _
    rw [parseNum_eval 1 ip hip hipd fp hfpd sp hsp us u hu]
    rw [show signVal "" = 1 from rfl]
  · rw [show ("+" : String).data = ['+'] from rfl, List.cons_append, List.nil_append,
      readSign_plus]
    show parseNum 1 (ip ++ (fpPart fp ++ (sp.data ++ us.data))) = _
    rw [parseNum_eval 1 ip hip hipd fp hfpd sp hsp us u hu]
    rw [show signVal "+" = 1 from rfl]
  · rw [show ("-" : String).data = ['-'] from rfl, List.cons_append, List.nil_append,
      readSign_minus]
    show parseNum (-1) (ip ++ (fpPart fp ++ (sp.data ++ us.data))) = _
    rw [parseNum_eval (-1) ip hip hipd fp hfpd sp hsp us u hu]
    rw [show signVal "-" = -1 from rfl]

/-! ## Parse completeness: a successful parse exhibits the grammar -/

/-- The spec's accepted grammar `[+-]? DIGITS ("." DIGITS)? (" ")? UNIT`
(§6), as a predicate on character lists. -/
def ValidBytesChars (cs : List Char) : Prop :=
  ∃ sg ip fp sp us,
    cs = sg ++ (ip ++ (fp ++ (sp ++ us))) ∧
    (sg = [] ∨ sg = ['+'] ∨ sg = ['-']) ∧
    ip ≠ [] ∧ (∀ c ∈ ip, c.isDigit = true) ∧
    (fp = [] ∨ ∃ ds, fp = '.' :: ds ∧ ds ≠ [] ∧ ∀ c ∈ ds, c.isDigit = true) ∧
    (sp = [] ∨ sp = [' ']) ∧
    ∃ u, unitOfChars us = some u

/-- The grammar predicate on strings. -/
def ValidBytesString (s : String) : Prop := ValidBytesChars s.data

theorem readSign_split (cs : List Char) :
    ∃ sgl, (sgl = [] ∨ sgl = ['+'] ∨ sgl = ['-']) ∧ cs = sgl ++ (readSign cs).2 := by
  cases cs with
  | nil => exact ⟨[], Or.inl rfl, rfl⟩
  | cons c t =>
    by_cases h1 : c = '+'
    · subst h1
      exact ⟨['+'], Or.inr (Or.inl rfl), by rw [readSign_plus]; rfl⟩
    · by_cases h2 : c = '-'
      · subst h2
        exact ⟨['-'], Or.inr (Or.inr rfl), by rw [readSign_minus]; rfl⟩
      · refine ⟨[], Or.inl rfl, ?_⟩
        simp [readSign, h1, h2]

theorem stripOneSpace_split (cs : List Char) :
    ∃ sp, (sp = [] ∨ sp = [' ']) ∧ cs = sp ++ stripOneSpace cs := by
  cases cs with
  | nil => exact ⟨[], Or.inl rfl, rfl⟩
  | cons c t =>
    by_cases h : c = ' '
    · subst h
      exact ⟨[' '], Or.inr rfl, by rw [stripOneSpace_space]; rfl⟩
    · exact ⟨[], Or.inl rfl, by rw [stripOneSpace_other c t h]; rfl⟩

theorem finishParse_some (sg : ℚ) (ip fp rest : List Char) (v : ℤ)
    (h : finishParse sg ip fp rest = some v) :
    ∃ sp usl, rest = sp ++ usl ∧ (sp = [] ∨ sp = [' ']) ∧
      ∃ u, unitOfChars usl = some u := by
  obtain ⟨sp, hsp, hrest⟩ := stripOneSpace_split rest
  refine ⟨sp, stripOneSpace rest, hrest, hsp, ?_⟩
  cases hu : unitOfChars (stripOneSpace rest) with
  | none => exact Option.noConfusion (by simpa only [finishParse, hu] using h)
  | some u => exact ⟨u, rfl⟩

theorem fpPart_of_ne (fp : List Char) (h : fp ≠ []) : fpPart fp = '.' :: fp := by
  cases fp with
  | nil => exact absurd rfl h
  | cons c t => rfl

theorem parseAfterDigits_some (sg : ℚ) (ip rest : List Char) (v : ℤ)
    (h : parseAfterDigits sg ip rest = some v) :
    ∃ fp tail, rest = fpPart fp ++ tail ∧ (∀ c ∈ fp, c.isDigit = true) ∧
      finishParse sg ip fp tail = some v := by
  cases rest with
  | nil => exact ⟨[], [], rfl, by simp, h⟩
  | cons c t =>
    by_cases hc : c = '.'
    · subst hc
      simp only [parseAfterDigits, if_true] at h
      by_cases h1 : (spanDigits t).1 = []
      · rw [if_pos h1] at h
        exact Option.noConfusion h
      · rw [if_neg h1] at h
        refine ⟨(spanDigits t).1, (spanDigits t).2, ?_, spanDigits_digits t, h⟩
        rw [fpPart_of_ne _ h1, List.cons_append, ← spanDigits_decomp t]
    · simp only [parseAfterDigits, if_neg hc] at h
      exact ⟨[], c :: t, rfl, by simp, h⟩

theorem parseNum_some (sg : ℚ) (cs : List Char) (v : ℤ)
    (h : parseNum sg cs = some v) :
    ∃ ip rest, cs = ip ++ rest ∧ ip ≠ [] ∧ (∀ c ∈ ip, c.isDigit = true) ∧
      parseAfterDigits sg ip rest = some v := by
  simp only [parseNum] at h
  by_cases hip : (spanDigits cs).1 = []
  · rw [if_pos hip] at h
    exact Option.noConfusion h
  · rw [if_neg hip] at h
    exact ⟨(spanDigits cs).1, (spanDigits cs).2, spanDigits_decomp cs, hip,
      spanDigits_digits cs, h⟩

theorem parseBytes_some_valid (s : String) (v : ℤ)
    (h : parseBytes s = some v) : ValidBytesString s := by
  obtain ⟨sgl, hsgl, hsplit⟩ := readSign_split s.data
  obtain ⟨ip, rest, hcs, hip, hipd, h2⟩ := parseNum_some _ _ _ h
  obtain ⟨fp, tail, hrest, hfpd, h3⟩ := parseAfterDigits_some _ _ _ _ h2
  obtain ⟨sp, usl, htail, hsp, u, hu⟩ := finishParse_some _ _ _ _ _ h3
  refine ⟨sgl, ip, fpPart fp, sp, usl, ?_, hsgl, hip, hipd, ?_, hsp, u, hu⟩
  · rw [hsplit, hcs, hrest, htail]
  · cases hfp : fp with
    | nil => exact Or.inl rfl
    | cons f ft =>
      refine Or.inr ⟨f :: ft, rfl, by simp, ?_⟩
      rw [← hfp]
      exact hfpd

/-! ## Auto unit selection -/

theorem scaleOf_cast (u : ByteUnit) : ((scaleOf u : ℕ) : ℚ) = 1024 ^ u.index := by
  simp [scaleOf]

theorem autoUnit_mem (q : ℚ) (h : (1024 : ℚ) ≤ |q|) :
    ((scaleOf (autoUnit q) : ℕ) : ℚ) ≤ |q| := by
  unfold autoUnit
  split_ifs with h1 h2 h3 h4 h5
  · exact h1
  · exact h2
  · exact h3
  · exact h4
  · exact h5
  · simp only [scaleOf, ByteUnit.index, pow_zero, Nat.cast_one]
    linarith

theorem autoUnit_byte (q : ℚ) (h : |q| < 1024) : autoUnit q = .b := by
  unfold autoUnit
  split_ifs with h1 h2 h3 h4 h5
  · rw [scaleOf_cast] at h1
    norm_num [ByteUnit.index] at h1
    linarith
  · rw [scaleOf_cast] at h2
    norm_num [ByteUnit.index] at h2
    linarith
  · rw [scaleOf_cast] at h3
    norm_num [ByteUnit.index] at h3
    linarith
  · rw [scaleOf_cast] at h4
    norm_num [ByteUnit.index] at h4
    linarith
  · rw [scaleOf_cast] at h5
    norm_num [ByteUnit.index] at h5
    linarith
  · rfl

theorem autoUnit_max (q : ℚ) (u : ByteUnit) (h : ((scaleOf u : ℕ) : ℚ) ≤ |q|) :
    u.index ≤ (autoUnit q).index := by
  rw [scaleOf_cast] at h
  unfold autoUnit
  split_ifs with h1 h2 h3 h4 h5 <;>
    rw [scaleOf_cast] at * <;>
    cases u <;>
    norm_num [ByteUnit.index] at * <;>
    linarith

theorem autoUnit_mono (a b : ℚ) (hab : |a| ≤ |b|) :
    (autoUnit a).index ≤ (autoUnit b).index := by
  by_cases h : (1024 : ℚ) ≤ |a|
  · exact autoUnit_max b (autoUnit a) (le_trans (autoUnit_mem a h) hab)
  · rw [autoUnit_byte a (by linarith)]
    exact Nat.zero_le _

/-! ## Decimal rendering of naturals -/

theorem digitChar_isDigit (d : ℕ) (h : d < 10) : (digitChar d).isDigit = true := by
  interval_cases d <;> decide

theorem digitChar_val (d : ℕ) (h : d < 10) : (digitChar d).toNat - 48 = d := by
  interval_cases d <;> decide

theorem natToCharsAux_acc (fuel : ℕ) : ∀ (n : ℕ) (acc : List Char),
    natToCharsAux fuel n acc = natToCharsAux fuel n [] ++ acc := by
  induction fuel with
  | zero => intro n acc; simp [natToCharsAux]
  | succ f ih =>
    intro n acc
    by_cases hn : n = 0
    · simp [natToCharsAux, hn]
    · simp only [natToCharsAux, hn, if_false]
      rw [ih (n / 10) (digitChar (n % 10) :: acc), ih (n / 10) [digitChar (n % 10)],
        List.append_assoc]
      rfl

theorem natToCharsAux_fuel (f1 : ℕ) : ∀ (f2 n : ℕ) (acc : List Char),
    n < f1 → n < f2 → natToCharsAux f1 n acc = natToCharsAux f2 n acc := by
  induction f1 with
  | zero => intro f2 n acc h1 h2; omega
  | succ f1 ih =>
    intro f2 n acc h1 h2
    cases f2 with
    | zero => omega
    | succ f2 =>
      by_cases hn : n = 0
      · simp [natToCharsAux, hn]
      · simp only [natToCharsAux, hn, if_false]
        have hd : n / 10 < n := Nat.div_lt_self (by omega) (by norm_num)
        exact ih f2 (n / 10) _ (by omega) (by omega)

theorem natToCharsAux_step (n : ℕ) (h : 0 < n) :
    natToCharsAux (n + 1) n []
      = natToCharsAux (n / 10 + 1) (n / 10) [] ++ [digitChar (n % 10)] := by
  have hd : n / 10 < n := Nat.div_lt_self h (by norm_num)
  show natToCharsAux (n + 1) n [] = _
  rw [show natToCharsAux (n + 1) n [] =
      natToCharsAux n (n / 10) [digitChar (n % 10)] by
    simp [natToCharsAux, Nat.pos_iff_ne_zero.mp h]]
  rw [natToCharsAux_acc n (n / 10) [digitChar (n % 10)]]
  congr 1
  exact natToCharsAux_fuel n (n / 10 + 1) (n / 10) [] hd (by omega)

theorem digitsToNat_append_singleton (ds : List Char) (c : Char) :
    digitsToNat (ds ++ [c]) = digitsToNat ds * 10 + (c.toNat - 48) := by
  simp [digitsToNat, List.foldl_append]

theorem digitsToNat_natToCharsAux (n : ℕ) :
    digitsToNat (natToCharsAux (n + 1) n []) = n := by
  induction n using Nat.strong_induction_on with
  | _ n ih =>
    by_cases hn : n = 0
    · simp [hn, natToCharsAux, digitsToNat]
    · rw [natToCharsAux_step n (by omega), digitsToNat_append_singleton,
        ih (n / 10) (Nat.div_lt_self (by omega) (by norm_num)),
        digitChar_val (n % 10) (Nat.mod_lt n (by norm_num))]
      omega

theorem natToCharsAux_all_digits (n : ℕ) :
    ∀ c ∈ natToCharsAux (n + 1) n [], c.isDigit = true := by
  induction n using Nat.strong_induction_on with
  | _ n ih =>
    by_cases hn : n = 0
    · simp [hn, natToCharsAux]
    · rw [natToCharsAux_step n (by omega)]
      intro c hc
      rcases List.mem_append.mp hc with hc | hc
      · exact ih (n / 10) (Nat.div_lt_self (by omega) (by norm_num)) c hc
      · rw [List.mem_singleton.mp hc]
        exact digitChar_isDigit (n % 10) (Nat.mod_lt n (by norm_num))

theorem natToCharsAux_length (n : ℕ) : ∀ k : ℕ, n < 10 ^ k →
    (natToCharsAux (n + 1) n []).length ≤ k := by
  induction n using Nat.strong_induction_on with
  | _ n ih =>
    intro k hk
    by_cases hn : n = 0
    · simp [hn, natToCharsAux]
    · have hkpos : 0 < k := by
        rcases Nat.eq_zero_or_pos k with rfl | h
        · simp at hk; omega
        · exact h
      rw [natToCharsAux_step n (by omega)]
      rw [List.length_append, List.length_singleton]
      have hdiv : n / 10 < 10 ^ (k - 1) := by
        rw [Nat.div_lt_iff_lt_mul (by norm_num)]
        calc n < 10 ^ k := hk
        _ = 10 ^ (k - 1) * 10 := by
          rw [← pow_succ]
          congr 1
          omega
      have := ih (n / 10) (Nat.div_lt_self (by omega) (by norm_num)) (k - 1) hdiv
      omega

theorem natToChars_all_digits (n : ℕ) : ∀ c ∈ natToChars n, c.isDigit = true := by
  by_cases hn : n = 0
  · simp only [natToChars, hn, if_true]
    intro c hc
    rw [List.mem_singleton.mp hc]
    decide
  · simp only [natToChars, hn, if_false]
    exact natToCharsAux_all_digits n

theorem natToChars_ne_nil (n : ℕ) : natToChars n ≠ [] := by
  by_cases hn : n = 0
  · simp [natToChars, hn]
  · simp only [natToChars, hn, if_false]
    rw [natToCharsAux_step n (by omega)]
    simp

theorem digitsToNat_natToChars (n : ℕ) : digitsToNat (natToChars n) = n := by
  by_cases hn : n = 0
  · simp [natToChars, hn, digitsToNat]
  · simp only [natToChars, hn, if_false]
    exact digitsToNat_natToCharsAux n

theorem natToChars_length (n k : ℕ) (hn : n < 10 ^ k) (hk : 0 < k) :
    (natToChars n).length ≤ k := by
  by_cases h : n = 0
  · simp [natToChars, h]
    omega
  · simp only [natToChars, h, if_false]
    exact natToCharsAux_length n k hn

/-! ## Padding, stripping and grouping -/

theorem digitsToNat_replicate_zero_append (k : ℕ) (ds : List Char) :
    digitsToNat (List.replicate k '0' ++ ds) = digitsToNat ds := by
  induction k with
  | zero => rfl
  | succ k ih =>
    rw [List.replicate_succ, List.cons_append]
    show digitsToNat (List.replicate k '0' ++ ds) = _
    exact ih

theorem digitsToNat_padZeros (dp : ℕ) (ds : List Char) :
    digitsToNat (padZeros dp ds) = digitsToNat ds :=
  digitsToNat_replicate_zero_append _ ds

theorem padZeros_length (dp : ℕ) (ds : List Char) (h : ds.length ≤ dp) :
    (padZeros dp ds).length = dp := by
  simp [padZeros]
  omega

theorem padZeros_all_digits (dp : ℕ) (ds : List Char)
    (h : ∀ c ∈ ds, c.isDigit = true) : ∀ c ∈ padZeros dp ds, c.isDigit = true := by
  intro c hc
  rcases List.mem_append.mp hc with hc | hc
  · rw [List.eq_of_mem_replicate hc]
    decide
  · exact h c hc

theorem fracChars_length (dp m : ℕ) (h : m < 10 ^ dp) :
    (fracChars dp m).length = dp := by
  rcases Nat.eq_zero_or_pos dp with rfl | hdp
  · rfl
  · rw [fracChars, if_neg (by omega)]
    exact padZeros_length dp _ (natToChars_length m dp h hdp)

theorem fracChars_all_digits (dp m : ℕ) :
    ∀ c ∈ fracChars dp m, c.isDigit = true := by
  rcases Nat.eq_zero_or_pos dp with rfl | hdp
  · simp [fracChars]
  · rw [fracChars, if_neg (by omega)]
    exact padZeros_all_digits dp _ (natToChars_all_digits m)

theorem digitsToNat_fracChars (dp m : ℕ) (h : m < 10 ^ dp) :
    digitsToNat (fracChars dp m) = m := by
  rcases Nat.eq_zero_or_pos dp with rfl | hdp
  · simp only [pow_zero] at h
    interval_cases m
    rfl
  · rw [fracChars, if_neg (by omega), digitsToNat_padZeros]
    exact digitsToNat_natToChars m

theorem stripTrailingZeros_spec (ds : List Char) :
    ∃ k, ds = stripTrailingZeros ds ++ List.replicate k '0' := by
  refine ⟨(ds.reverse.takeWhile (fun c => c = '0')).length, ?_⟩
  conv_lhs => rw [← List.reverse_reverse ds,
    ← List.takeWhile_append_dropWhile (p := fun c => c = '0') (l := ds.reverse)]
  rw [List.reverse_append, stripTrailingZeros]
  congr 1
  have : ∀ c ∈ ds.reverse.takeWhile (fun c => c = '0'), c = '0' := by
    intro c hc
    have := List.mem_takeWhile_imp hc
    simpa using this
  rw [List.eq_replicate_of_mem this, List.reverse_replicate, List.length_replicate]

theorem dropWhile_head_false {p : Char → Bool} (l : List Char) (c : Char) (t : List Char)
    (h : l.dropWhile p = c :: t) : p c = false := by
  induction l with
  | nil => exact absurd h (by simp)
  | cons a l ih =>
    by_cases ha : p a
    · rw [List.dropWhile_cons_of_pos ha] at h
      exact ih h
    · rw [List.dropWhile_cons_of_neg ha] at h
      injection h with h1 h2
      subst h1
      simpa using ha

theorem stripTrailingZeros_no_trailing (ds : List Char) :
    (stripTrailingZeros ds).getLast? ≠ some '0' := by
  rw [stripTrailingZeros, List.getLast?_reverse]
  intro h
  cases hd : ds.reverse.dropWhile (fun c => c = '0') with
  | nil => rw [hd] at h; exact Option.noConfusion h
  | cons c t =>
    rw [hd] at h
    have hc : c = '0' := by simpa using h
    have := dropWhile_head_false ds.reverse c t hd
    rw [hc] at this
    simp at this

theorem stripTrailingZeros_sublist (ds : List Char) :
    ∀ c ∈ stripTrailingZeros ds, c ∈ ds := by
  intro c hc
  obtain ⟨k, hk⟩ := stripTrailingZeros_spec ds
  rw [hk]
  exact List.mem_append_left _ hc

theorem groupThousands_empty (ds : List Char) : groupThousands "" ds = ds := by
  simp [groupThousands]

/-! ## Rounding bridges -/

theorem natRoundHalfUp_eq (a b : ℕ) (hb : 0 < b) :
    (natRoundHalfUp a b : ℤ) = round ((a : ℚ) / b) := by
  rw [round_eq]
  have hb0 : ((b : ℚ)) ≠ 0 := by positivity
  have h : (a : ℚ) / b + 1 / 2 = ((2 * a + b : ℕ) : ℚ) / ((2 * b : ℕ) : ℚ) := by
    push_cast
    field_simp
    ring
  rw [h, Rat.floor_natCast_div_natCast, natRoundHalfUp]
  push_cast [Int.ofNat_div]
  rfl

theorem rat_abs_eq (q : ℚ) : |q| = ((q.num.natAbs : ℕ) : ℚ) / ((q.den : ℕ) : ℚ) := by
  rw [Int.cast_natAbs, Int.cast_abs,
    ← abs_of_nonneg (show (0 : ℚ) ≤ (q.den : ℚ) by positivity), ← abs_div,
    Rat.num_div_den]

theorem scaleOf_pos (u : ByteUnit) : 0 < scaleOf u :=
  pow_pos (by norm_num) _

theorem scaledRounded_eq (q : ℚ) (u : ByteUnit) (dp : ℕ) :
    (scaledRounded q u dp : ℤ) = round (|q| / ((scaleOf u : ℕ) : ℚ) * 10 ^ dp) := by
  have hden : (0 : ℚ) < (q.den : ℚ) := by positivity
  have hscale : (0 : ℚ) < ((scaleOf u : ℕ) : ℚ) := by
    exact_mod_cast scaleOf_pos u
  have h : |q| / ((scaleOf u : ℕ) : ℚ) * 10 ^ dp
      = ((q.num.natAbs * 10 ^ dp : ℕ) : ℚ) / ((q.den * scaleOf u : ℕ) : ℚ) := by
    rw [rat_abs_eq q]
    push_cast
    field_simp
  rw [scaledRounded, h, natRoundHalfUp_eq _ _ (Nat.mul_pos q.pos (scaleOf_pos u))]

/-! ## Parsing the formatter's output -/

theorem unitOfChars_label (u : ByteUnit) : unitOfChars u.label.data = some u := by
  cases u <;> decide

theorem digitsToNat_append_zeros (xs : List Char) (k : ℕ) :
    digitsToNat (xs ++ List.replicate k '0') = digitsToNat xs * 10 ^ k := by
  induction k with
  | zero => simp
  | succ k ih =>
    rw [List.replicate_succ', ← List.append_assoc, digitsToNat_append_singleton, ih]
    rw [show ('0' : Char).toNat - 48 = 0 from rfl, pow_succ]
    ring

theorem strip_value (ds : List Char) :
    (digitsToNat (stripTrailingZeros ds) : ℚ) / 10 ^ (stripTrailingZeros ds).length
      = (digitsToNat ds : ℚ) / 10 ^ ds.length := by
  obtain ⟨k, hk⟩ := stripTrailingZeros_spec ds
  conv_rhs => rw [hk]
  rw [digitsToNat_append_zeros, List.length_append, List.length_replicate]
  push_cast
  rw [pow_add]
  rw [div_eq_div_iff (by positivity) (by positivity)]
  ring

theorem mantissa_render (n dp : ℕ) (fixed : Bool) :
    mantissa (natToChars (n / 10 ^ dp))
      (if fixed then fracChars dp (n % 10 ^ dp)
        else stripTrailingZeros (fracChars dp (n % 10 ^ dp)))
      = (n : ℚ) / 10 ^ dp := by
  have hm : n % 10 ^ dp < 10 ^ dp := Nat.mod_lt _ (pow_pos (by norm_num) _)
  have hfix : (digitsToNat (fracChars dp (n % 10 ^ dp)) : ℚ)
      / 10 ^ (fracChars dp (n % 10 ^ dp)).length
      = ((n % 10 ^ dp : ℕ) : ℚ) / 10 ^ dp := by
    rw [digitsToNat_fracChars dp _ hm, fracChars_length dp _ hm]
  have hval : (if fixed then fracChars dp (n % 10 ^ dp)
        else stripTrailingZeros (fracChars dp (n % 10 ^ dp))) = (if fixed then fracChars dp (n % 10 ^ dp)
        else stripTrailingZeros (fracChars dp (n % 10 ^ dp))) := rfl
  have key : (digitsToNat (if fixed then fracChars dp (n % 10 ^ dp)
        else stripTrailingZeros (fracChars dp (n % 10 ^ dp))) : ℚ)
      / 10 ^ (if fixed then fracChars dp (n % 10 ^ dp)
        else stripTrailingZeros (fracChars dp (n % 10 ^ dp))).length
      = ((n % 10 ^ dp : ℕ) : ℚ) / 10 ^ dp := by
    cases fixed with
    | true => simpa using hfix
    | false =>
      simp only [if_false, Bool.false_eq_true]
      rw [strip_value]
      exact hfix
  rw [mantissa, digitsToNat_natToChars, key]
  have h2 : 10 ^ dp * (n / 10 ^ dp) + n % 10 ^ dp = n := Nat.div_add_mod n (10 ^ dp)
  rw [eq_div_iff (show ((10 : ℚ) ^ dp) ≠ 0 by positivity), add_mul,
    div_mul_cancel₀ _ (show ((10 : ℚ) ^ dp) ≠ 0 by positivity)]
  push_cast
  have h3 : n / 10 ^ dp * 10 ^ dp + n % 10 ^ dp = n := by
    rw [Nat.mul_comm] at h2
    exact h2
  exact_mod_cast h3

theorem signVal_of_neg (q : ℚ) :
    signVal (if q < 0 then "-" else "") = if q < 0 then (-1 : ℚ) else 1 := by
  by_cases h : q < 0 <;> simp [signVal, h]

theorem parseBytes_formatFinite (q : ℚ) (opts : BytesOptions)
    (hts : opts.thousandsSeparator = "")
    (hus : opts.unitSeparator = "" ∨ opts.unitSeparator = " ") :
    parseBytes (formatFinite q opts)
      = some (round ((if q < 0 then (-1 : ℚ) else 1)
          * ((scaledRounded q (opts.unit.getD (autoUnit q)) opts.decimalPlaces : ℕ)
              / 10 ^ opts.decimalPlaces)
          * ((scaleOf (opts.unit.getD (autoUnit q)) : ℕ) : ℚ))) := by
  have hform : formatFinite q opts
      = assembleInput (if q < 0 then "-" else "")
          (natToChars (scaledRounded q (opts.unit.getD (autoUnit q)) opts.decimalPlaces
              / 10 ^ opts.decimalPlaces))
          (if opts.fixedDecimals then
              fracChars opts.decimalPlaces
                (scaledRounded q (opts.unit.getD (autoUnit q)) opts.decimalPlaces
                  % 10 ^ opts.decimalPlaces)
            else
              stripTrailingZeros (fracChars opts.decimalPlaces
                (scaledRounded q (opts.unit.getD (autoUnit q)) opts.decimalPlaces
                  % 10 ^ opts.decimalPlaces)))
          opts.unitSeparator (opts.unit.getD (autoUnit q)).label := by
    simp only [formatFinite]
    rw [hts, groupThousands_empty]
  have hsg : (if q < 0 then "-" else "") = ""
      ∨ (if q < 0 then "-" else "") = "+" ∨ (if q < 0 then "-" else "") = "-" := by
    by_cases h : q < 0
    · rw [if_pos h]
      exact Or.inr (Or.inr rfl)
    · rw [if_neg h]
      exact Or.inl rfl
  have hfpd : ∀ c ∈ (if opts.fixedDecimals then
        fracChars opts.decimalPlaces
          (scaledRounded q (opts.unit.getD (autoUnit q)) opts.decimalPlaces
            % 10 ^ opts.decimalPlaces)
      else
        stripTrailingZeros (fracChars opts.decimalPlaces
          (scaledRounded q (opts.unit.getD (autoUnit q)) opts.decimalPlaces
            % 10 ^ opts.decimalPlaces))), c.isDigit = true := by
    intro c hc
    by_cases hf : opts.fixedDecimals
    · rw [if_pos hf] at hc
      exact fracChars_all_digits _ _ c hc
    · rw [if_neg hf] at hc
      exact fracChars_all_digits _ _ c (stripTrailingZeros_sublist _ c hc)
  rw [hform, parseBytes_assembleInput _ hsg _ (natToChars_ne_nil _) (natToChars_all_digits _)
      _ hfpd _ hus _ _ (unitOfChars_label _)]
  rw [mantissa_render, signVal_of_neg]

/-! ## Round-trip error bound -/

theorem sign_mul_abs (q : ℚ) : (if q < 0 then (-1 : ℚ) else 1) * |q| = q := by
  by_cases h : q < 0
  · rw [if_pos h, abs_of_neg h]
    ring
  · rw [if_neg h, abs_of_nonneg (not_lt.mp h)]
    ring

theorem roundtrip_core (N : ℤ) (u : ByteUnit) :
    ∃ v : ℤ,
      parseBytes (formatFinite (N : ℚ)
        { decimalPlaces := 6, fixedDecimals := true, unit := some u }) = some v ∧
      |(v : ℚ) - (N : ℚ)| ≤ 1 / 2 + ((scaleOf u : ℕ) : ℚ) / (2 * 10 ^ 6) := by
  have hmaster := parseBytes_formatFinite (N : ℚ)
    { decimalPlaces := 6, fixedDecimals := true, unit := some u } rfl (Or.inl rfl)
  simp only [Option.getD_some] at hmaster
  refine ⟨_, hmaster, ?_⟩
  have hS : (0 : ℚ) < ((scaleOf u : ℕ) : ℚ) := by exact_mod_cast scaleOf_pos u
  have hm : ((scaledRounded (N : ℚ) u 6 : ℕ) : ℤ)
      = round (|(N : ℚ)| / ((scaleOf u : ℕ) : ℚ) * 10 ^ 6) := scaledRounded_eq _ u 6
  have h1 : |((scaledRounded (N : ℚ) u 6 : ℕ) : ℚ)
      - |(N : ℚ)| / ((scaleOf u : ℕ) : ℚ) * 10 ^ 6| ≤ 1 / 2 := by
    have h := abs_sub_round (α := ℚ) (|(N : ℚ)| / ((scaleOf u : ℕ) : ℚ) * 10 ^ 6)
    rw [abs_sub_comm] at h
    have hcast : ((scaledRounded (N : ℚ) u 6 : ℕ) : ℚ)
        = ((round (|(N : ℚ)| / ((scaleOf u : ℕ) : ℚ) * 10 ^ 6) : ℤ) : ℚ) := by
      exact_mod_cast hm
    rw [hcast]
    exact h
  have hy : |(if (N : ℚ) < 0 then (-1 : ℚ) else 1)
        * (((scaledRounded (N : ℚ) u 6 : ℕ) : ℚ) / 10 ^ 6) * ((scaleOf u : ℕ) : ℚ)
      - (N : ℚ)| ≤ ((scaleOf u : ℕ) : ℚ) / (2 * 10 ^ 6) := by
    have hsgn : (if (N : ℚ) < 0 then (-1 : ℚ) else 1) * |(N : ℚ)| = (N : ℚ) :=
      sign_mul_abs _
    have habs : |(if (N : ℚ) < 0 then (-1 : ℚ) else 1)| = 1 := by
      by_cases h : (N : ℚ) < 0 <;> simp [h]
    generalize hM : ((scaledRounded (N : ℚ) u 6 : ℕ) : ℚ) = M at h1 ⊢
    generalize hSc : ((scaleOf u : ℕ) : ℚ) = S at h1 hS ⊢
    generalize hx : (N : ℚ) = x at h1 hsgn habs ⊢
    have hS' : S ≠ 0 := ne_of_gt hS
    by_cases hneg : x < 0
    · rw [if_pos hneg]
      rw [abs_of_neg hneg] at h1
      have hid : (-1 : ℚ) * (M / 10 ^ 6) * S - x
          = (M - -x / S * 10 ^ 6) * (S / 10 ^ 6) * (-1) := by
        field_simp
        ring
      rw [hid, abs_mul, abs_mul, abs_neg, abs_one, mul_one,
        abs_of_pos (show (0 : ℚ) < S / 10 ^ 6 by positivity)]
      calc |M - -x / S * 10 ^ 6| * (S / 10 ^ 6)
          ≤ (1 / 2) * (S / 10 ^ 6) :=
            mul_le_mul_of_nonneg_right h1 (by positivity)
        _ = S / (2 * 10 ^ 6) := by ring
    · rw [if_neg hneg]
      rw [abs_of_nonneg (not_lt.mp hneg)] at h1
      have hid : (1 : ℚ) * (M / 10 ^ 6) * S - x
          = (M - x / S * 10 ^ 6) * (S / 10 ^ 6) := by
        field_simp
        ring
      rw [hid, abs_mul,
        abs_of_pos (show (0 : ℚ) < S / 10 ^ 6 by positivity)]
      calc |M - x / S * 10 ^ 6| * (S / 10 ^ 6)
          ≤ (1 / 2) * (S / 10 ^ 6) :=
            mul_le_mul_of_nonneg_right h1 (by positivity)
        _ = S / (2 * 10 ^ 6) := by ring
  have h3 := abs_sub_round (α := ℚ)
    ((if (N : ℚ) < 0 then (-1 : ℚ) else 1)
      * (((scaledRounded (N : ℚ) u 6 : ℕ) : ℚ) / 10 ^ 6) * ((scaleOf u : ℕ) : ℚ))
  rw [abs_sub_comm] at h3
  calc |((round ((if (N : ℚ) < 0 then (-1 : ℚ) else 1)
          * (((scaledRounded (N : ℚ) u 6 : ℕ) : ℚ) / 10 ^ 6)
          * ((scaleOf u : ℕ) : ℚ)) : ℤ) : ℚ) - (N : ℚ)|
      ≤ |((round ((if (N : ℚ) < 0 then (-1 : ℚ) else 1)
          * (((scaledRounded (N : ℚ) u 6 : ℕ) : ℚ) / 10 ^ 6)
          * ((scaleOf u : ℕ) : ℚ)) : ℤ) : ℚ)
          - (if (N : ℚ) < 0 then (-1 : ℚ) else 1)
            * (((scaledRounded (N : ℚ) u 6 : ℕ) : ℚ) / 10 ^ 6) * ((scaleOf u : ℕ) : ℚ)|
        + |(if (N : ℚ) < 0 then (-1 : ℚ) else 1)
            * (((scaledRounded (N : ℚ) u 6 : ℕ) : ℚ) / 10 ^ 6) * ((scaleOf u : ℕ) : ℚ)
          - (N : ℚ)| := abs_sub_le _ _ _
    _ ≤ 1 / 2 + ((scaleOf u : ℕ) : ℚ) / (2 * 10 ^ 6) := add_le_add h3 hy

theorem int_eq_of_abs_lt_one (v N : ℤ) (h : |(v : ℚ) - (N : ℚ)| < 1) : v = N := by
  have h2 : |((v - N : ℤ) : ℚ)| < 1 := by
    push_cast
    exact h
  rw [← Int.cast_abs] at h2
  have h3 : |v - N| < 1 := by exact_mod_cast h2
  rw [abs_lt] at h3
  omega

/-! ## Claim theorems -/

/-- Claim C1: every string accepted by the grammar (optional sign, decimal
mantissa with an optional fraction, optional single space, case-insensitive
unit token) parses to `round(sign * mantissa * 1024 ^ k)` where `k` is the
unit's index; in particular `parse "1KB" = 1024` and
`parse "1MB" = 1048576`. -/
theorem c1_parse_grammar :
    (∀ (sg : String) (ip fp : List Char) (sp us : String) (u : ByteUnit),
      (sg = "" ∨ sg = "+" ∨ sg = "-") → ip ≠ [] → (∀ c ∈ ip, c.isDigit = true) →
      (∀ c ∈ fp, c.isDigit = true) → (sp = "" ∨ sp = " ") →
      unitOfChars us.data = some u →
      parseBytes (assembleInput sg ip fp sp us)
        = some (round (signVal sg * mantissa ip fp * 1024 ^ u.index)))
    ∧ parseBytes "1KB" = some 1024 ∧ parseBytes "1MB" = some 1048576 := by
  refine ⟨?_, ?_, ?_⟩
  · intro sg ip fp sp us u hsg hip hipd hfpd hsp hu
    rw [parseBytes_assembleInput sg hsg ip hip hipd fp hfpd sp hsp us u hu, scaleOf_cast]
  · have h := parseBytes_assembleInput "" (Or.inl rfl) ['1'] (by decide) (by decide)
      [] (by decide) "" (Or.inl rfl) "KB" ByteUnit.kb (by decide)
    rw [show assembleInput "" ['1'] [] "" "KB" = "1KB" by decide] at h
    rw [h, show signVal "" = 1 from rfl,
      show mantissa ['1'] [] = 1 by
        rw [mantissa, show digitsToNat ['1'] = 1 from by decide,
          show digitsToNat [] = 0 from by decide]
        norm_num,
      show ((scaleOf ByteUnit.kb : ℕ) : ℚ) = 1024 by norm_num [scaleOf, ByteUnit.index]]
    norm_num [round_eq]
  · have h := parseBytes_assembleInput "" (Or.inl rfl) ['1'] (by decide) (by decide)
      [] (by decide) "" (Or.inl rfl) "MB" ByteUnit.mb (by decide)
    rw [show assembleInput "" ['1'] [] "" "MB" = "1MB" by decide] at h
    rw [h, show signVal "" = 1 from rfl,
      show mantissa ['1'] [] = 1 by
        rw [mantissa, show digitsToNat ['1'] = 1 from by decide,
          show digitsToNat [] = 0 from by decide]
        norm_num,
      show ((scaleOf ByteUnit.mb : ℕ) : ℚ) = 1048576 by norm_num [scaleOf, ByteUnit.index]]
    norm_num [round_eq]

/-- Witness for C1 at the concrete grammar components of `"1KB"`. -/
theorem c1_parse_grammar_witness :
    parseBytes (assembleInput "" ['1'] [] "" "KB")
      = some (round (signVal "" * mantissa ['1'] [] * 1024 ^ ByteUnit.index ByteUnit.kb)) :=
  c1_parse_grammar.1 "" ['1'] [] "" "KB" ByteUnit.kb (Or.inl rfl) (by decide) (by decide)
    (by decide) (Or.inl rfl) (by decide)

/-- Claim C2: with no forced unit, `format` auto-selects the largest unit
whose scale is at most `|bytesValue|` (byte when `|bytesValue| < 1024`);
`format 1023` selects byte, `format 1024` selects kilobyte and renders
`"1KB"` under the default options. -/
theorem c2_auto_unit :
    (∀ (q : ℚ) (u : ByteUnit), ((scaleOf u : ℕ) : ℚ) ≤ |q| →
      u.index ≤ (autoUnit q).index)
    ∧ (∀ q : ℚ, (1024 : ℚ) ≤ |q| → ((scaleOf (autoUnit q) : ℕ) : ℚ) ≤ |q|)
    ∧ (∀ q : ℚ, |q| < 1024 → autoUnit q = ByteUnit.b)
    ∧ autoUnit 1023 = ByteUnit.b ∧ autoUnit 1024 = ByteUnit.kb
    ∧ format (JSNum.finite 1024) {} = some "1KB" :=
  ⟨fun q u h => autoUnit_max q u h, autoUnit_mem, autoUnit_byte,
    by decide, by decide, by decide⟩

/-- Witness for C2: the kilobyte unit has scale below `|2048|`, so the
auto-selected unit for 2048 is at least kilobyte. -/
theorem c2_auto_unit_witness :
    ByteUnit.index ByteUnit.kb ≤ (autoUnit (2048 : ℚ)).index :=
  c2_auto_unit.1 2048 ByteUnit.kb (by decide)

/-- Claim C3: `parse` is a total function returning an option — it never
throws — and whenever it does not return `null` the input belongs to the
accepted grammar (so every grammar violation, unknown unit included,
returns `null`); in particular `parse "invalid" = null`. -/
theorem c3_parse_null :
    (∀ s : String, parseBytes s ≠ none → ValidBytesString s)
    ∧ parseBytes "invalid" = none := by
  refine ⟨?_, by decide⟩
  intro s h
  obtain ⟨v, hv⟩ := Option.ne_none_iff_exists'.mp h
  exact parseBytes_some_valid s v hv

/-- Witness for C3 at `"1KB"`, which parses successfully. -/
theorem c3_parse_null_witness : ValidBytesString "1KB" :=
  c3_parse_null.1 "1KB" (by decide)

/-- Claim C4: `format` returns `null` exactly on the three non-finite
inputs, and on every finite input it returns some (complete) string;
in particular `format Infinity = null`. -/
theorem c4_format_nonfinite :
    (∀ (x : JSNum) (opts : BytesOptions),
      format x opts = none ↔ (x = JSNum.nan ∨ x = JSNum.posInf ∨ x = JSNum.negInf))
    ∧ format JSNum.posInf {} = none
    ∧ (∀ (q : ℚ) (opts : BytesOptions), ∃ s, format (JSNum.finite q) opts = some s) := by
  refine ⟨?_, rfl, fun q opts => ⟨_, rfl⟩⟩
  intro x opts
  cases x <;> simp [format]

/-- Claim C5: when `fixedDecimals` is false (the default) the formatter
strips trailing `'0'` digits (the stripped digits are exactly a trailing
block of zeros and the remainder never ends in `'0'`), and it strips the
decimal point when nothing remains: `1.00` renders as `"1KB"` while `1.50`
renders as `"1.5KB"` (compare the `fixedDecimals := true` renderings). -/
theorem c5_strip_trailing :
    (∀ ds : List Char, (∃ k, ds = stripTrailingZeros ds ++ List.replicate k '0')
      ∧ (stripTrailingZeros ds).getLast? ≠ some '0')
    ∧ format (JSNum.finite 1024) { decimalPlaces := 2, fixedDecimals := false }
        = some "1KB"
    ∧ format (JSNum.finite 1536) { decimalPlaces := 2, fixedDecimals := false }
        = some "1.5KB"
    ∧ format (JSNum.finite 1024) { decimalPlaces := 2, fixedDecimals := true }
        = some "1.00KB"
    ∧ format (JSNum.finite 1536) { decimalPlaces := 2, fixedDecimals := true }
        = some "1.50KB" :=
  ⟨fun ds => ⟨stripTrailingZeros_spec ds, stripTrailingZeros_no_trailing ds⟩,
    by decide, by decide, by decide, by decide⟩

/-- Counterexample to claim C6: with `decimalPlaces := 2` and the other
options at their defaults (`fixedDecimals = false`), trailing zeros are
stripped, so `format 1073741824` renders `"1GB"`, not `"1.00GB"`. -/
theorem c6_counterexample :
    format (JSNum.finite 1073741824) { decimalPlaces := 2 } = some "1GB"
    ∧ format (JSNum.finite 1073741824) { decimalPlaces := 2 } ≠ some "1.00GB" :=
  ⟨by decide, by decide⟩

/-- Amended claim C6: `format(1073741824, {decimalPlaces: 2,
fixedDecimals: true})` returns `"1.00GB"`. -/
theorem c6_amended :
    format (JSNum.finite 1073741824) { decimalPlaces := 2, fixedDecimals := true }
      = some "1.00GB" := by decide

/-- Claim C7: for every unit and every integer byte count (hence on any
representative range), parsing the output of
`format (n, {unit, decimalPlaces := 6, fixedDecimals := true})` recovers
`n` within `10⁻⁶ · scaleOf(unit)`. -/
theorem c7_roundtrip :
    ∀ (u : ByteUnit) (N : ℤ), ∃ (s : String) (v : ℤ),
      format (JSNum.finite (N : ℚ))
          { decimalPlaces := 6, fixedDecimals := true, unit := some u } = some s
      ∧ parseBytes s = some v
      ∧ |(v : ℚ) - (N : ℚ)| ≤ ((scaleOf u : ℕ) : ℚ) / 10 ^ 6 := by
  intro u N
  obtain ⟨v, hv, hbound⟩ := roundtrip_core N u
  refine ⟨_, v, rfl, hv, ?_⟩
  have hS : (0 : ℚ) < ((scaleOf u : ℕ) : ℚ) := by exact_mod_cast scaleOf_pos u
  rcases lt_or_le (((scaleOf u : ℕ) : ℚ)) (10 ^ 6) with hcase | hcase
  · have hlt : |(v : ℚ) - (N : ℚ)| < 1 := by
      refine lt_of_le_of_lt hbound ?_
      have : ((scaleOf u : ℕ) : ℚ) / (2 * 10 ^ 6) < 1 / 2 := by
        rw [div_lt_iff (by norm_num)]
        linarith
      linarith
    rw [int_eq_of_abs_lt_one v N hlt, sub_self, abs_zero]
    positivity
  · refine le_trans hbound ?_
    have h12 : (1 : ℚ) / 2 ≤ ((scaleOf u : ℕ) : ℚ) / (2 * 10 ^ 6) := by
      rw [div_le_div_iff (by norm_num) (by norm_num)]
      linarith
    have heq : ((scaleOf u : ℕ) : ℚ) / 10 ^ 6
        = ((scaleOf u : ℕ) : ℚ) / (2 * 10 ^ 6) + ((scaleOf u : ℕ) : ℚ) / (2 * 10 ^ 6) := by
      ring
    linarith

/-- Counterexample to claim C8 as stated: the auto-selected unit depends on
the magnitude, so `bytesA = -1048576 < 0 = bytesB` selects megabyte for
`bytesA` but byte for `bytesB`. -/
theorem c8_counterexample :
    ((-1048576 : ℚ) < (0 : ℚ))
    ∧ ¬ ((autoUnit (-1048576 : ℚ)).index ≤ (autoUnit (0 : ℚ)).index) := by
  decide

/-- Amended claim C8: for nonnegative byte counts, `bytesA < bytesB`
implies the auto-selected unit index for A is at most that for B. -/
theorem c8_amended :
    ∀ a b : ℚ, 0 ≤ a → a < b → (autoUnit a).index ≤ (autoUnit b).index := by
  intro a b h0 hab
  refine autoUnit_mono a b ?_
  rw [abs_of_nonneg h0, abs_of_nonneg (by linarith)]
  linarith

/-- Witness for the amended C8 at `a = 100`, `b = 2048`. -/
theorem c8_amended_witness :
    (autoUnit (100 : ℚ)).index ≤ (autoUnit (2048 : ℚ)).index :=
  c8_amended 100 2048 (by decide) (by decide)

/-- Claim C9: negative magnitudes parse to negative byte counts without
clamping (whenever the scaled magnitude exceeds one half, the result is
strictly negative), `format` renders a leading `'-'` for every negative
input, and concretely `parse "-5MB" = -5242880` and
`format (-5242880) = "-5MB"`. -/
theorem c9_sign_preservation :
    (∀ (q : ℚ) (opts : BytesOptions), q < 0 →
      (formatFinite q opts).data.head? = some '-')
    ∧ (∀ (ip fp : List Char) (us : String) (u : ByteUnit),
        ip ≠ [] → (∀ c ∈ ip, c.isDigit = true) → (∀ c ∈ fp, c.isDigit = true) →
        unitOfChars us.data = some u →
        1 / 2 < mantissa ip fp * ((scaleOf u : ℕ) : ℚ) →
        ∃ v : ℤ, parseBytes (assembleInput "-" ip fp "" us) = some v ∧ v < 0)
    ∧ parseBytes "-5MB" = some (-5242880)
    ∧ format (JSNum.finite (-5242880)) {} = some "-5MB" := by
  refine ⟨?_, ?_, ?_, by decide⟩
  · intro q opts h
    simp only [formatFinite]
    rw [if_pos h]
    simp [assembleInput, String.data_append]
  · intro ip fp us u hip hipd hfpd hu hM
    rw [parseBytes_assembleInput "-" (Or.inr (Or.inr rfl)) ip hip hipd fp hfpd ""
      (Or.inl rfl) us u hu]
    refine ⟨_, rfl, ?_⟩
    rw [show signVal "-" = -1 from by norm_num [signVal], round_eq, Int.floor_lt]
    push_cast
    linarith
  · have h := parseBytes_assembleInput "-" (Or.inr (Or.inr rfl)) ['5'] (by decide)
      (by decide) [] (by decide) "" (Or.inl rfl) "MB" ByteUnit.mb (by decide)
    rw [show assembleInput "-" ['5'] [] "" "MB" = "-5MB" by decide] at h
    rw [h, show signVal "-" = -1 from by norm_num [signVal],
      show mantissa ['5'] [] = 5 by
        rw [mantissa, show digitsToNat ['5'] = 5 from by decide,
          show digitsToNat [] = 0 from by decide]
        norm_num,
      show ((scaleOf ByteUnit.mb : ℕ) : ℚ) = 1048576 by norm_num [scaleOf, ByteUnit.index]]
    norm_num [round_eq]

/-- Witness for C9: `format` puts a leading minus on `-1`, and the
negative-parse clause applied to the components of `"-5MB"`. -/
theorem c9_sign_preservation_witness :
    (formatFinite (-1 : ℚ) {}).data.head? = some '-'
    ∧ ∃ v : ℤ, parseBytes (assembleInput "-" ['5'] [] "" "MB") = some v ∧ v < 0 :=
  ⟨c9_sign_preservation.1 (-1) {} (by decide),
    c9_sign_preservation.2.1 ['5'] [] "MB" ByteUnit.mb (by decide) (by decide) (by decide)
      (by decide)
      (by rw [show mantissa ['5'] [] = 5 by
            rw [mantissa, show digitsToNat ['5'] = 5 from by decide,
              show digitsToNat [] = 0 from by decide]
            norm_num,
          show ((scaleOf ByteUnit.mb : ℕ) : ℚ) = 1048576 by
            norm_num [scaleOf, ByteUnit.index]]
          norm_num)⟩

/-- Counterexample to claim C10 as stated: with a non-empty thousands
separator and a forced byte unit, `format 1000000` renders
`"1,000,000B"`, which `parse` rejects. -/
theorem c10_counterexample :
    format (JSNum.finite 1000000) { thousandsSeparator := ",", unit := some ByteUnit.b }
      = some "1,000,000B"
    ∧ parseBytes "1,000,000B" = none :=
  ⟨by decide, by decide⟩

/-- Amended claim C10: for every finite value and all options whose
`thousandsSeparator` is empty and whose `unitSeparator` is empty or a
single space, the string returned by `format` conforms to the grammar and
re-parses successfully. -/
theorem c10_amended :
    ∀ (q : ℚ) (opts : BytesOptions), opts.thousandsSeparator = "" →
      (opts.unitSeparator = "" ∨ opts.unitSeparator = " ") →
      ∃ s, format (JSNum.finite q) opts = some s
        ∧ ValidBytesString s ∧ parseBytes s ≠ none := by
  intro q opts h1 h2
  have h := parseBytes_formatFinite q opts h1 h2
  exact ⟨formatFinite q opts, rfl, parseBytes_some_valid _ _ h, by simp [h]⟩

/-- Witness for the amended C10 at `1536` with default options. -/
theorem c10_amended_witness :
    ∃ s, format (JSNum.finite 1536) {} = some s
      ∧ ValidBytesString s ∧ parseBytes s ≠ none :=
  c10_amended 1536 {} rfl (Or.inl rfl)

end Bytes
